import Mathlib

/-!
# Verification of `lib/models/instantiate-addons.js`

This file gives a shallow embedding of the addon instantiation pipeline of
`instantiate-addons.js` and proves the specified properties about it.

The embedding models:

* the data carried by an `AddonInfo` (name, path, and the `package.json`
  record `pkg` with its optional top-level `main` and its optional
  `ember-addon` sub-record holding `main`/`before`/`after`);
* the Node `path`/`fs`/`require` collaborators as an explicit environment
  (`Env`), with `realpathSync` and module loading as partial functions;
* loaded addon modules as data (`ModuleValue`): either a callable
  constructor (with its prototype's optional `root`/`pkg` fields and its
  construction outcome) or a declarative object handed to `Addon.extend`;
* the `dag-map` ordering graph.  The `dag-map` package is an external
  dependency whose source is not part of this repository, so the resolver
  is modelled from the specification: a deterministic topological sort
  that emits, among the nodes that have no unresolved predecessor, the
  one that was first added, and fails on a cycle.

Observable behaviour is captured by a `RunResult`: the ordered trace of
side effects (filesystem calls, module loads, error-sink writes, nested
`initializeAddons` calls), the final state of the descriptor store (the
code mutates `addonInfo.pkg.main`), and either the ordered list of
constructed addon instances or the error that aborted the call.
All definitions are total and executable; `instantiateAddons` is a pure
function, so equal inputs always give equal outputs (the determinism part
of the ordering claims).
-/

/-- The `ember-addon` sub-record of a `package.json`: an optional
entry-point override `main` and the ordering constraint lists `before`
and `after` (an absent list in JS behaves as no constraints and is
modelled as `[]`). -/
structure EmberAddonConfig where
  main : Option String := none
  before : List String := []
  after : List String := []
deriving DecidableEq

/-- The part of a `package.json` record read by `instantiate-addons.js`:
the optional top-level `main` and the optional `ember-addon` sub-record. -/
structure Pkg where
  main : Option String := none
  emberAddon : Option EmberAddonConfig := none
deriving DecidableEq

/-- An `AddonInfo` descriptor: addon name, location on disk, and its
`package.json` record. -/
structure AddonInfo where
  name : String
  path : String
  pkg : Pkg
deriving DecidableEq

/-- Outcome of invoking a constructible addon type with
`(parent, project)`: either a successful construction (recording whether
the produced instance exposes an `initializeAddons` method) or a thrown
error, modelled by its message. -/
inductive CtorBehavior where
  | ok (hasInitializeAddons : Bool)
  | throws (e : String)
deriving DecidableEq

/-- A loaded module that is itself a function: its prototype's optional
`root` and `pkg` fields (as left by the plugin author) and its
construction outcome. -/
structure CallableModule where
  protoRoot : Option String := none
  protoPkg : Option Pkg := none
  behavior : CtorBehavior
deriving DecidableEq

/-- A loaded module that is a plain object, passed to `Addon.extend`
after `Object.assign({root: mainDir, pkg: addonInfo.pkg}, addonModule)`:
its own optional `root`/`pkg` fields (which override the defaults) and
the construction outcome of the extended class. -/
structure DeclModule where
  root : Option String := none
  pkg : Option Pkg := none
  behavior : CtorBehavior
deriving DecidableEq

/-- The value produced by `require(mainRealPath)`. -/
inductive ModuleValue where
  | callable (m : CallableModule)
  | declarative (m : DeclModule)
deriving DecidableEq

/-- The construction outcome of a loaded module, independent of variant. -/
def moduleBehavior : ModuleValue → CtorBehavior
  | .callable m => m.behavior
  | .declarative m => m.behavior

/-- The `parent` argument: its `name` (the code accepts both a field and
a zero-argument accessor; only the resulting string matters here) and
whether it exposes the error-reporting sink `parent.ui`. -/
structure Parent where
  name : String
  hasUi : Bool
deriving DecidableEq

/-- The `project` argument is passed through unexamined and may be
absent; it is opaque to this module. -/
abbrev Project := Unit

/-- Errors that abort an `instantiateAddons` call.  `cycleError` comes
from the ordering graph resolver; `jsTypeError` models the TypeError
raised by reading `.before` of an `undefined` `ember-addon` record;
`fsError` models the error thrown by `fs.realpathSync` on a missing
path; `moduleError` models a failing `require`; `silentError` is the
`SilentError` wrapping a throwing constructor. -/
inductive Err where
  | cycleError (stuck : List String)
  | jsTypeError (msg : String)
  | fsError (path : String)
  | moduleError (path : String)
  | silentError (msg : String)
deriving DecidableEq

/-- Observable side effects of a run, in order: `fs.realpathSync` calls,
`require` calls, writes of a raw constructor error to `parent.ui`, and
invocations of a fresh instance's own `initializeAddons`. -/
inductive Effect where
  | realpathCall (p : String)
  | loadCall (p : String)
  | writeError (e : String)
  | initializeAddonsCall (n : String)
deriving DecidableEq

/-- The external collaborators: the filesystem real-path resolver
(`none` when the path does not exist, in which case `fs.realpathSync`
throws) and the module loader (`none` when `require` fails). -/
structure Env where
  realpath : String → Option String
  load : String → Option ModuleValue

/-- A constructed addon instance, with the data the claims observe: the
descriptor name it was built from, its `root` and `pkg` (from the
prototype defaulting or the declarative merge), the canonical module
path recorded in the constructor's `_meta_`, and whether it exposed
`initializeAddons`. -/
structure AddonInstance where
  name : String
  root : Option String
  pkg : Option Pkg
  modulePath : String
  hasInitializeAddons : Bool
deriving DecidableEq

/-- JS truthiness of an optional string: `undefined` and `""` are falsy. -/
def truthyStr : Option String → Bool
  | none => false
  | some s => !(s == "")

/-- The JS `a || b` on optional strings. -/
def jsOrStr (a b : Option String) : Option String :=
  if truthyStr a then a else b

/-- Split a character list at every occurrence of `c` (the analogue of
`String.splitOn` for a one-character separator, written with structural
recursion so that everything evaluates inside the kernel). -/
def splitOnChar (c : Char) : List Char → List (List Char)
  | [] => [[]]
  | x :: xs =>
    match splitOnChar c xs with
    | [] => if x = c then [[], []] else [[x]]
    | y :: ys => if x = c then [] :: y :: ys else (x :: y) :: ys

/-- Join character-list parts with the separator `c` (the analogue of
`String.intercalate`). -/
def joinWithChar (c : Char) : List (List Char) → List Char
  | [] => []
  | [x] => x
  | x :: y :: ys => x ++ c :: joinWithChar c (y :: ys)

/-- Model of Node `path.basename` restricted to `/`-separated paths:
the part after the last separator. -/
def basenameOf (s : String) : String :=
  String.mk ((splitOnChar '/' s.toList).getLastD s.toList)

/-- Index of the last `.` in a list of characters, if any. -/
def lastDot (cs : List Char) : Option Nat :=
  (List.range cs.length).foldl
    (fun acc i => if cs.get? i = some '.' then some i else acc) none

/-- Model of Node `path.extname`: the suffix of the basename from its
last `.`, empty when there is no `.` or when the `.` is the leading
character of the basename. -/
def extnameOf (s : String) : String :=
  let b := basenameOf s
  match lastDot b.toList with
  | none => ""
  | some 0 => ""
  | some i => String.mk (b.toList.drop i)

/-- Model of Node `path.join` for the two-argument uses in this module. -/
def joinPath (a b : String) : String :=
  if a = "" then b
  else if a.toList.getLast? = some '/' then a ++ b
  else a ++ "/" ++ b

/-- Model of Node `path.dirname` restricted to `/`-separated paths. -/
def dirnameOf (s : String) : String :=
  let parts := splitOnChar '/' s.toList
  if parts.length ≤ 1 then "."
  else
    let d := String.mk (joinWithChar '/' parts.dropLast)
    if d = "" then "/" else d

/-- Lines 70–77 of the source: select the entry point name.  The
`ember-addon`-level `main` is used when truthy
(`(pkg['ember-addon'] && pkg['ember-addon'].main) || pkg['main']`). -/
def selectedMain (pkg : Pkg) : Option String :=
  jsOrStr (pkg.emberAddon.bind (fun c => c.main)) pkg.main

/-- Lines 73–77 of the source: normalise the selected `main`.  A falsy
`main`, `.` or `./` becomes `index.js`; a `main` without a file
extension gets `.js` appended. -/
def resolveMain (pkg : Pkg) : String :=
  match selectedMain pkg with
  | none => "index.js"
  | some m =>
    if m = "" ∨ m = "." ∨ m = "./" then "index.js"
    else if extnameOf m = "" then m ++ ".js"
    else m

/-- Line 82 of the source: the entry point joined with the addon's
location. -/
def mainPathOf (i : AddonInfo) : String :=
  joinPath i.path (resolveMain i.pkg)

/-- The constructible type produced from a loaded module (lines
93–102): its prototype-level `root` and `pkg` and its construction
outcome.  For a callable module the fields default with
`X.prototype.root = X.prototype.root || mainDir` (JS `||`, so an empty
string is replaced) and `X.prototype.pkg = X.prototype.pkg || pkg`
(an object is always truthy); for a declarative module the merge is
`Object.assign({root: mainDir, pkg}, addonModule)`, so a field present
on the module wins. -/
structure BuiltCtor where
  root : Option String
  pkg : Option Pkg
  behavior : CtorBehavior
deriving DecidableEq

/-- Lines 93–102 of the source: turn a loaded module into a
constructible type. -/
def buildCtor (mv : ModuleValue) (mainDir : String) (pkg : Pkg) : BuiltCtor :=
  match mv with
  | .callable m =>
    { root := jsOrStr m.protoRoot (some mainDir)
      pkg := match m.protoPkg with
             | some p => some p
             | none => some pkg
      behavior := m.behavior }
  | .declarative m =>
    { root := some (m.root.getD mainDir)
      pkg := some (m.pkg.getD pkg)
      behavior := m.behavior }

deriving instance DecidableEq for Except

/-- Result of processing a single addon from the resolved order (lines
54–131): the effect trace of the step and either the constructed
instance or the aborting error. -/
structure StepOut where
  effects : List Effect
  result : Except Err AddonInstance
deriving DecidableEq

/-- Lines 54–131 of the source, for one addon with a present payload:
resolve the entry point, canonicalise it (`fs.realpathSync` throws when
the path is missing), `require` it, build the constructible type,
construct the instance (a throwing constructor is reported to
`parent.ui` when present and replaced by a `SilentError` naming the
addon and its location), then either invoke the fresh instance's own
`initializeAddons` or default its `addons` list. -/
def processAddon (env : Env) (parent : Parent) (i : AddonInfo) : StepOut :=
  let mainStr := resolveMain i.pkg
  let pkg' : Pkg := { i.pkg with main := some mainStr }
  let mainPath := joinPath i.path mainStr
  match env.realpath mainPath with
  | none =>
    { effects := [.realpathCall mainPath]
      result := .error (.fsError mainPath) }
  | some rp =>
    match env.load rp with
    | none =>
      { effects := [.realpathCall mainPath, .loadCall rp]
        result := .error (.moduleError rp) }
    | some mv =>
      let mainDir := dirnameOf rp
      let C := buildCtor mv mainDir pkg'
      match C.behavior with
      | .throws e =>
        { effects := [.realpathCall mainPath, .loadCall rp] ++
            (if parent.hasUi then [.writeError e] else [])
          result := .error (.silentError
            ("An error occurred in the constructor for " ++ i.name ++
             " at " ++ i.path)) }
      | .ok hasInit =>
        { effects := [.realpathCall mainPath, .loadCall rp] ++
            (if hasInit then [.initializeAddonsCall i.name] else [])
          result := .ok
            { name := i.name
              root := C.root
              pkg := C.pkg
              modulePath := rp
              hasInitializeAddons := hasInit } }

/-- The descriptor store: the `addonPackages` object as an association
list in key insertion order. -/
abbrev Store := List (String × AddonInfo)

/-- The single mutation the code performs on a descriptor (line 80,
`addonInfo.pkg.main = main`): set the manifest's top-level `main` on the
store entry with the given key. -/
def storeSetMain (st : Store) (k : String) (m : String) : Store :=
  st.map (fun p =>
    if p.1 = k then (p.1, { p.2 with pkg := { p.2.pkg with main := some m } })
    else p)

/-- Modelled from the spec: the `dag-map` ordering graph (the `dag-map`
package is an external dependency, not part of this repository's
source).  Vertices are kept in the order they were first added (also
when first mentioned only as a constraint target, in which case the
payload stays `none`); each `before` constraint from `a` to `b` is an
edge `(a, b)` meaning `a` must precede `b`, and each `after` constraint
from `a` to `b` is an edge `(b, a)`. -/
structure Graph where
  verts : List (String × Option AddonInfo)
  edges : List (String × String)
deriving DecidableEq

/-- The vertex keys of a graph, in first-added order. -/
def keysOf (g : Graph) : List String :=
  g.verts.map Prod.fst

/-- Modelled from the spec: create a vertex for `k` (with no payload)
unless one already exists; the vertex keeps its first-added position. -/
def ensureVertex (g : Graph) (k : String) : Graph :=
  if k ∈ keysOf g then g
  else { g with verts := g.verts ++ [(k, none)] }

/-- Modelled from the spec: attach the payload `i` to the vertex `k`. -/
def setTask (g : Graph) (k : String) (i : AddonInfo) : Graph :=
  { g with verts := g.verts.map (fun p => if p.1 = k then (p.1, some i) else p) }

/-- Modelled from the spec: record the edge `(a, b)` — `a` must precede
`b` in the resolved order. -/
def addEdge (g : Graph) (a b : String) : Graph :=
  { g with edges := g.edges ++ [(a, b)] }

/-- Modelled from the spec: `DAGMap.add(k, i, before, after)`.  The node
`k` is added with payload `i`; every name in `before` gets an edge from
`k`, every name in `after` gets an edge to `k`; names never added on
their own stay payload-free vertices. -/
def dagAdd (g : Graph) (k : String) (i : AddonInfo)
    (before after : List String) : Graph :=
  let g1 := setTask (ensureVertex g k) k i
  let g2 := before.foldl (fun g b => addEdge (ensureVertex g b) k b) g1
  after.foldl (fun g a => addEdge (ensureVertex g a) a k) g2

/-- The edge relation of a graph. -/
def EdgeOf (g : Graph) (a b : String) : Prop :=
  (a, b) ∈ g.edges

/-- Lines 45–50 of the source: build the ordering graph from the store.
Reading `.before` of a missing `ember-addon` record is a TypeError. -/
def buildGraphAux : Store → Graph → Except Err Graph
  | [], g => .ok g
  | p :: rest, g =>
    match p.2.pkg.emberAddon with
    | none => .error (.jsTypeError
        ("Cannot read properties of undefined (reading 'before') for " ++ p.1))
    | some cfg => buildGraphAux rest (dagAdd g p.1 p.2 cfg.before cfg.after)

/-- Build the ordering graph from an empty graph. -/
def buildGraph (store : Store) : Except Err Graph :=
  buildGraphAux store { verts := [], edges := [] }

/-- Modelled from the spec: a vertex is eligible for emission when no
edge into it comes from a still-unresolved vertex. -/
def readyB (es : List (String × String)) (rem : List String) (v : String) : Bool :=
  es.all (fun e => !(e.2 == v && rem.contains e.1))

/-- Modelled from the spec: the deterministic topological sort.  At each
step the first-added eligible vertex among the remaining ones is
emitted (`rem` is kept in first-added order, so `find?` implements the
insertion-order tie-break); if no remaining vertex is eligible the
resolver fails with a `CycleError` carrying the stuck vertices.  The
fuel argument makes termination structural; it is called with
`rem.length`, which never runs out. -/
def kahn (es : List (String × String)) : Nat → List String → Except Err (List String)
  | _, [] => .ok []
  | 0, rem => .error (.cycleError rem)
  | fuel+1, rem =>
    match rem.find? (readyB es rem) with
    | none => .error (.cycleError rem)
    | some v =>
      match kahn es fuel (rem.erase v) with
      | .ok rest => .ok (v :: rest)
      | .error e => .error e

/-- Modelled from the spec: resolve the graph to its linear order of
vertex keys. -/
def resolveG (g : Graph) : Except Err (List String) :=
  kahn g.edges (keysOf g).length (keysOf g)

/-- The payload attached to a vertex key, if any. -/
def taskOf (g : Graph) (k : String) : Option AddonInfo :=
  (g.verts.find? (fun p => p.1 == k)).bind (fun p => p.2)

/-- Lines 43–53 of the source: build the graph, resolve it, and pair
every resolved key with its payload; keys visited only as constraint
targets have no payload and are skipped by `graph.each`'s
`if (addonInfo)` guard. -/
def orderedPairs (store : Store) : Except Err (List (String × AddonInfo)) :=
  match buildGraph store with
  | .error e => .error e
  | .ok g =>
    match resolveG g with
    | .error e => .error e
    | .ok order =>
      .ok (order.filterMap (fun k => (taskOf g k).map (fun i => (k, i))))

/-- Lines 53–133 of the source: process the resolved addons in order.
Each step first performs the store mutation `addonInfo.pkg.main = main`
(line 80), then the rest of the step; the first failing step aborts the
loop, discarding any instances built so far. -/
def runList (env : Env) (parent : Parent) :
    List (String × AddonInfo) → Store →
    List Effect × Store × Except Err (List AddonInstance)
  | [], st => ([], st, .ok [])
  | (k, i) :: rest, st =>
    let st' := storeSetMain st k (resolveMain i.pkg)
    let s := processAddon env parent i
    match s.result with
    | .error e => (s.effects, st', .error e)
    | .ok inst =>
      let r := runList env parent rest st'
      (s.effects ++ r.1, r.2.1,
        match r.2.2 with
        | .ok insts => .ok (inst :: insts)
        | .error e => .error e)

/-- The observable result of an `instantiateAddons` call: the ordered
effect trace, the final descriptor store (the code mutates
`addonInfo.pkg.main`), and either the ordered addon instances or the
error that aborted the call. -/
structure RunResult where
  effects : List Effect
  store : Store
  outcome : Except Err (List AddonInstance)
deriving DecidableEq

/-- The whole of `instantiateAddons(parent, project, addonPackages)`
(lines 27–151).  `addonPackages` may be absent (`addonPackages || {}`);
with no addon names the call returns `[]` at once, performing no graph
work and no I/O.  Otherwise the ordering graph is built and resolved,
and the resolved addons are processed in order.  The `project` argument
is passed through unexamined. -/
def instantiateCore (parent : Parent) (env : Env) (store : Store) : RunResult :=
  if store.isEmpty then
    { effects := [], store := store, outcome := .ok [] }
  else
    match orderedPairs store with
    | .error e => { effects := [], store := store, outcome := .error e }
    | .ok pairs =>
      match runList env parent pairs store with
      | (efs, st, out) => { effects := efs, store := st, outcome := out }

def instantiateAddons (parent : Parent) (project : Option Project)
    (addonPackages : Option Store) (env : Env) : RunResult :=
  instantiateCore parent env (addonPackages.getD [])

/-- Position of the first occurrence of `a` in `l` (length when absent). -/
def listPos : List String → String → Nat
  | [], _ => 0
  | b :: t, a => if b = a then 0 else listPos t a + 1

/-- Whether an effect is a write to the parent's error sink. -/
def isWriteError : Effect → Bool
  | .writeError _ => true
  | _ => false

/-- The run reaches this addon's constructor and the constructor throws
`e`: the entry point canonicalises, the module loads, and its
construction outcome is `throws e`. -/
def ctorThrowsOn (env : Env) (i : AddonInfo) (e : String) : Prop :=
  ∃ rp mv, env.realpath (mainPathOf i) = some rp ∧
    env.load rp = some mv ∧ moduleBehavior mv = .throws e

/-- Processing this addon succeeds (entry point resolves, module loads,
constructor returns). -/
def stepOkOn (env : Env) (parent : Parent) (i : AddonInfo) : Prop :=
  ∃ a, (processAddon env parent i).result = .ok a

/-- The platform's module-file extension named by the spec. -/
def specModuleExt : String := ".js"

/-- The entry-point selection rule as the spec states it: the
ordering-config-level `main`, if present, takes precedence over the
manifest's top-level `main`. -/
def specSelectedMain (pkg : Pkg) : Option String :=
  match pkg.emberAddon with
  | some cfg =>
    match cfg.main with
    | some m => some m
    | none => pkg.main
  | none => pkg.main

/-- The entry-point normalisation rule as the spec states it: if the
selected `main` is absent, `.`, or `./`, the entry point is `index`
plus the module-file extension; if it has no file extension, the
module-file extension is appended. -/
def specEntryPointRel (pkg : Pkg) : String :=
  match specSelectedMain pkg with
  | none => "index" ++ specModuleExt
  | some m =>
    if m = "." ∨ m = "./" then "index" ++ specModuleExt
    else if extnameOf m = "" then m ++ specModuleExt
    else m

/-- The resolved entry point as the spec states it: the normalised name
joined with the descriptor's location. -/
def specEntryPoint (i : AddonInfo) : String :=
  joinPath i.path (specEntryPointRel i.pkg)

/-- A descriptor with its manifest's top-level `main` removed: the
projection under which the store should be (and, apart from `main`,
is) unchanged by a call. -/
def withMainErased (i : AddonInfo) : AddonInfo :=
  { i with pkg := { i.pkg with main := none } }

/-- Erase `main` on every store entry. -/
def storeMainErased (st : Store) : Store :=
  st.map (fun p => (p.1, withMainErased p.2))

/-- Fixture: an addon manifest with `main: "lib/foo"` and an empty
`ember-addon` record. -/
def pkgFoo : Pkg :=
  { main := some "lib/foo", emberAddon := some {} }

/-- Fixture: a descriptor builder with the `lib/foo` manifest and given
ordering constraints. -/
def mkInfo (n : String) (bef aft : List String) : AddonInfo :=
  { name := n
    path := "loc/" ++ n
    pkg := { main := some "lib/foo"
             emberAddon := some { main := none, before := bef, after := aft } } }

/-- Fixture: a descriptor whose manifest has no `ember-addon` record. -/
def infoNoEA : AddonInfo :=
  { name := "bare", path := "loc/bare", pkg := {} }

/-- Fixture: a filesystem/loader environment where every path exists
(prefixed real path) and every module is a plain constructible function
whose constructor succeeds. -/
def envAll : Env :=
  { realpath := fun p => some ("real/" ++ p)
    load := fun _ => some (.callable { behavior := .ok false }) }

/-- Fixture: an environment with an empty filesystem. -/
def envNone : Env :=
  { realpath := fun _ => none, load := fun _ => none }

/-- Fixture: an environment whose modules all throw `"boom"` from their
constructor. -/
def envBoom : Env :=
  { realpath := fun p => some ("real/" ++ p)
    load := fun _ => some (.callable { behavior := .throws "boom" }) }

/-- The graph produced by adding a single constraint-free descriptor. -/
def gSingle (k : String) (i : AddonInfo) : Graph :=
  { verts := [(k, some i)], edges := [] }

/-- Fixture: a callable module whose author set `root` on the prototype
but not `pkg`. -/
def moduleCustomRoot : CallableModule :=
  { protoRoot := some "custom", protoPkg := none, behavior := .ok true }

/-- Fixture: two descriptors, `x` declared `after: ["y"]` and `y`
unconstrained (so `y` must be instantiated before `x`). -/
def pkgsW : Store := [("x", mkInfo "x" [] ["y"]), ("y", mkInfo "y" [] [])]

/-- The graph `buildGraph pkgsW` produces. -/
def gW : Graph :=
  { verts := [("x", some (mkInfo "x" [] ["y"])), ("y", some (mkInfo "y" [] []))]
    edges := [("y", "x")] }

/-- Fixture: two descriptors declaring a `before` cycle between `a` and
`b`. -/
def pkgsC : Store := [("a", mkInfo "a" ["b"] []), ("b", mkInfo "b" ["a"] [])]

/-- The graph `buildGraph pkgsC` produces. -/
def gC : Graph :=
  { verts := [("a", some (mkInfo "a" ["b"] [])), ("b", some (mkInfo "b" ["a"] []))]
    edges := [("a", "b"), ("b", "a")] }

/-- Fixture: a parent with an error sink. -/
def parentUi : Parent := { name := "the-app", hasUi := true }

/-- Fixture: a parent without an error sink. -/
def parentNoUi : Parent := { name := "the-app", hasUi := false }

/-! ## Helper lemmas -/

theorem buildCtor_behavior (mv : ModuleValue) (mainDir : String) (pkg : Pkg) :
    (buildCtor mv mainDir pkg).behavior = moduleBehavior mv := by
  cases mv <;> rfl

theorem storeSetMain_mainErased (st : Store) (k m : String) :
    storeMainErased (storeSetMain st k m) = storeMainErased st := by
  unfold storeMainErased storeSetMain
  rw [List.map_map]
  apply List.map_congr_left
  intro p _
  by_cases h : p.1 = k <;> simp [h, withMainErased]

theorem runList_store_mainErased (env : Env) (parent : Parent) :
    ∀ (pairs : List (String × AddonInfo)) (st : Store),
      storeMainErased ((runList env parent pairs st).2.1) = storeMainErased st := by
  intro pairs
  induction pairs with
  | nil => intro st; rfl
  | cons p t ih =>
    intro st
    obtain ⟨k, i⟩ := p
    simp only [runList]
    cases hres : (processAddon env parent i).result with
    | error e => simp [hres, storeSetMain_mainErased]
    | ok inst => simp [hres, ih, storeSetMain_mainErased]

/-! ## C9: empty descriptor mapping -/

/-- C9: for the empty descriptor mapping, `instantiateAddons` returns an
empty sequence immediately: no effects at all are performed (in
particular no module loading and no filesystem I/O; the early return on
`addonNames.length === 0` precedes any graph construction), and the
store is returned untouched. -/
theorem C9_empty_mapping_returns_empty (parent : Parent) (project : Option Project)
    (env : Env) :
    instantiateAddons parent project (some []) env =
      { effects := [], store := [], outcome := .ok [] } := rfl

/-! ## C10: absent descriptor mapping -/

/-- C10: when the descriptor mapping argument is entirely absent
(`addonPackages || {}`), `instantiateAddons` does not crash: it behaves
exactly like the empty mapping and returns an empty sequence with no
effects. -/
theorem C10_absent_mapping_like_empty (parent : Parent) (project : Option Project)
    (env : Env) :
    instantiateAddons parent project none env =
        { effects := [], store := [], outcome := .ok [] } ∧
      instantiateAddons parent project none env =
        instantiateAddons parent project (some []) env :=
  ⟨rfl, rfl⟩

/-! ## C5: missing entry point -/

/-- C5 evaluation: with a descriptor whose resolved entry point
`loc/a1/lib/foo.js` cannot be canonicalised, the call fails for the
whole run — but with the raw filesystem error thrown by
`fs.realpathSync` (modelled as `Err.fsError`), not with a
`MissingEntryPointError`: the source's own error path for a missing
entry point is commented out (`// TODO: bring back an error here`), and
no such error exists anywhere in the code. -/
theorem C5_missing_entry_point_raw_fs_error :
    (instantiateAddons parentUi none (some [("a1", mkInfo "a1" [] [])]) envNone).outcome
      = .error (.fsError "loc/a1/lib/foo.js") := by
  decide

/-! ## C4: descriptor mutation -/

/-- C4 counterexample: the core does mutate a descriptor.  On a fully
successful run, line 80 (`addonInfo.pkg.main = main`) overwrites the
manifest's `main` (here `"lib/foo"` becomes `"lib/foo.js"`), so the
store after the call differs from the store before it. -/
theorem C4_counterexample_store_mutated :
    (instantiateAddons parentUi none (some [("a1", mkInfo "a1" [] [])]) envAll).store
      ≠ [("a1", mkInfo "a1" [] [])] := by
  decide

/-- C4 amended: the manifest's top-level `main` is the only thing the
core mutates.  Under the projection that erases `main`, the final store
of every call (on every path, including error paths) equals the initial
store: every other field of every descriptor is unchanged. -/
theorem C4_amended_only_main_mutated (parent : Parent) (project : Option Project)
    (pkgs : Option Store) (env : Env) :
    storeMainErased (instantiateAddons parent project pkgs env).store =
      storeMainErased (pkgs.getD []) := by
  unfold instantiateAddons instantiateCore
  split
  · rfl
  · cases horder : orderedPairs (pkgs.getD []) with
    | error e => simp [horder]
    | ok pairs =>
      simp only [horder]
      cases hr : runList env parent pairs (pkgs.getD []) with
      | mk efs rest =>
        have := runList_store_mainErased env parent pairs (pkgs.getD [])
        rw [hr] at this
        simpa using this

/-! ## C6: entry point resolution -/

theorem resolveMain_eq_spec (pkg : Pkg)
    (h1 : ∀ cfg, pkg.emberAddon = some cfg → cfg.main ≠ some "")
    (h2 : pkg.main ≠ some "") :
    resolveMain pkg = specEntryPointRel pkg := by
  have hsel : selectedMain pkg = specSelectedMain pkg ∧ selectedMain pkg ≠ some "" := by
    unfold selectedMain specSelectedMain jsOrStr truthyStr
    cases hea : pkg.emberAddon with
    | none =>
      simpa using h2
    | some cfg =>
      cases hm : cfg.main with
      | none => simpa [hm] using h2
      | some m =>
        have hm' : m ≠ "" := fun h => h1 cfg hea (by rw [hm, h])
        simp [hm, hm']
  obtain ⟨he, hne⟩ := hsel
  unfold resolveMain specEntryPointRel
  rw [he]
  cases hs : specSelectedMain pkg with
  | none => rfl
  | some m =>
    have hm' : m ≠ "" := by
      intro h
      exact hne (by rw [he, hs, h])
    have hidx : ("index" ++ specModuleExt : String) = "index.js" := rfl
    simp [hm', hidx, specModuleExt]

/-- C6: the entry point is resolved exactly as specified — the
ordering-config-level `main` takes precedence over the manifest's
top-level `main`; an absent, `.` or `./` `main` becomes `index` plus
the module-file extension; a `main` without a file extension gets the
module-file extension appended; the result is joined with the
descriptor's location.  The hypotheses exclude the degenerate
empty-string `main` (JS treats `""` as falsy, i.e. as absent). -/
theorem C6_entry_point_resolution (i : AddonInfo)
    (h1 : ∀ cfg, i.pkg.emberAddon = some cfg → cfg.main ≠ some "")
    (h2 : i.pkg.main ≠ some "") :
    mainPathOf i = specEntryPoint i := by
  unfold mainPathOf specEntryPoint
  rw [resolveMain_eq_spec i.pkg h1 h2]

/-- Witness for C6 at a concrete descriptor (`main: "lib/foo"`, no
extension): the resolved entry point is `lib/foo.js` joined to the
location. -/
theorem C6_entry_point_resolution_witness :
    (∀ cfg, (mkInfo "a1" [] []).pkg.emberAddon = some cfg → cfg.main ≠ some "") ∧
      mainPathOf (mkInfo "a1" [] []) = specEntryPoint (mkInfo "a1" [] []) ∧
      mainPathOf (mkInfo "a1" [] []) = "loc/a1/lib/foo.js" :=
  ⟨fun cfg h => by injection h with h'; rw [← h']; decide,
   C6_entry_point_resolution (mkInfo "a1" [] [])
     (fun cfg h => by injection h with h'; rw [← h']; decide)
     (by decide),
   rfl⟩

/-! ## C8: callable variant defaulting -/

/-- C8: for a callable module, the prototype's `root` and `pkg` default
to the entry point's containing directory and the descriptor's manifest
only when the module did not set them itself; a truthy value set by the
plugin author is never overwritten.  (JS `||` also replaces a falsy
value such as `""`; for `pkg`, any object is truthy, so presence alone
decides.) -/
theorem C8_callable_first_write_wins (m : CallableModule) (mainDir : String) (pkg : Pkg) :
    (∀ r, m.protoRoot = some r → r ≠ "" →
        (buildCtor (.callable m) mainDir pkg).root = some r) ∧
    (m.protoRoot = none →
        (buildCtor (.callable m) mainDir pkg).root = some mainDir) ∧
    (∀ p, m.protoPkg = some p →
        (buildCtor (.callable m) mainDir pkg).pkg = some p) ∧
    (m.protoPkg = none →
        (buildCtor (.callable m) mainDir pkg).pkg = some pkg) := by
  refine ⟨?_, ?_, ?_, ?_⟩
  · intro r hr hne
    simp [buildCtor, jsOrStr, truthyStr, hr, hne]
  · intro hr
    simp [buildCtor, jsOrStr, truthyStr, hr]
  · intro p hp
    simp [buildCtor, hp]
  · intro hp
    simp [buildCtor, hp]

/-- Witness for C8: a module that set its own `root` keeps it, and its
unset `pkg` is defaulted to the descriptor's manifest. -/
theorem C8_callable_first_write_wins_witness :
    (buildCtor (.callable moduleCustomRoot) "dir" pkgFoo).root = some "custom" ∧
    (buildCtor (.callable moduleCustomRoot) "dir" pkgFoo).pkg = some pkgFoo :=
  ⟨(C8_callable_first_write_wins moduleCustomRoot "dir" pkgFoo).1 "custom" rfl
      (by decide),
   (C8_callable_first_write_wins moduleCustomRoot "dir" pkgFoo).2.2.2 rfl⟩

/-! ## Step lemmas for `processAddon` and `runList` -/

theorem processAddon_eq_fsError (env : Env) (parent : Parent) (i : AddonInfo)
    (hrp : env.realpath (mainPathOf i) = none) :
    processAddon env parent i =
      { effects := [.realpathCall (mainPathOf i)]
        result := .error (.fsError (mainPathOf i)) } := by
  have hrp' : env.realpath (joinPath i.path (resolveMain i.pkg)) = none := hrp
  simp only [processAddon, hrp']
  rfl

theorem processAddon_eq_ok (env : Env) (parent : Parent) (i : AddonInfo)
    (rp : String) (mv : ModuleValue) (hasInit : Bool)
    (hrp : env.realpath (mainPathOf i) = some rp)
    (hld : env.load rp = some mv)
    (hok : moduleBehavior mv = .ok hasInit) :
    processAddon env parent i =
      { effects := [.realpathCall (mainPathOf i), .loadCall rp] ++
          (if hasInit then [.initializeAddonsCall i.name] else [])
        result := .ok
          { name := i.name
            root := (buildCtor mv (dirnameOf rp)
              { i.pkg with main := some (resolveMain i.pkg) }).root
            pkg := (buildCtor mv (dirnameOf rp)
              { i.pkg with main := some (resolveMain i.pkg) }).pkg
            modulePath := rp
            hasInitializeAddons := hasInit } } := by
  have hrp' : env.realpath (joinPath i.path (resolveMain i.pkg)) = some rp := hrp
  have hbeh : (buildCtor mv (dirnameOf rp)
      { i.pkg with main := some (resolveMain i.pkg) }).behavior = .ok hasInit := by
    rw [buildCtor_behavior, hok]
  simp only [processAddon, hrp', hld, hbeh]
  rfl

theorem processAddon_eq_throws (env : Env) (parent : Parent) (i : AddonInfo)
    (rp : String) (mv : ModuleValue) (e : String)
    (hrp : env.realpath (mainPathOf i) = some rp)
    (hld : env.load rp = some mv)
    (hthrows : moduleBehavior mv = .throws e) :
    processAddon env parent i =
      { effects := [.realpathCall (mainPathOf i), .loadCall rp] ++
          (if parent.hasUi then [.writeError e] else [])
        result := .error (.silentError
          ("An error occurred in the constructor for " ++ i.name ++
           " at " ++ i.path)) } := by
  have hrp' : env.realpath (joinPath i.path (resolveMain i.pkg)) = some rp := hrp
  have hbeh : (buildCtor mv (dirnameOf rp)
      { i.pkg with main := some (resolveMain i.pkg) }).behavior = .throws e := by
    rw [buildCtor_behavior, hthrows]
  simp only [processAddon, hrp', hld, hbeh]
  rfl

/-- A successful step keeps the descriptor's name on the instance and
never writes to the error sink. -/
theorem processAddon_ok_inv (env : Env) (parent : Parent) (i : AddonInfo)
    (a : AddonInstance)
    (h : (processAddon env parent i).result = .ok a) :
    a.name = i.name ∧
      (processAddon env parent i).effects.filter isWriteError = [] := by
  cases hrp : env.realpath (mainPathOf i) with
  | none =>
    rw [processAddon_eq_fsError env parent i hrp] at h
    exact absurd h (by simp)
  | some rp =>
    cases hld : env.load rp with
    | none =>
      have hrp' : env.realpath (joinPath i.path (resolveMain i.pkg)) = some rp := hrp
      simp only [processAddon, hrp', hld] at h
      exact absurd h (by simp)
    | some mv =>
      cases hbeh : moduleBehavior mv with
      | throws e =>
        rw [processAddon_eq_throws env parent i rp mv e hrp hld hbeh] at h
        exact absurd h (by simp)
      | ok hasInit =>
        rw [processAddon_eq_ok env parent i rp mv hasInit hrp hld hbeh] at h ⊢
        refine ⟨?_, ?_⟩
        · cases h with
          | refl => rfl
        · cases hasInit <;> simp [isWriteError]

theorem resolveG_single (k : String) (i : AddonInfo) :
    resolveG (gSingle k i) = .ok [k] := by
  show kahn [] 1 [k] = .ok [k]
  have hready : readyB [] [k] k = true := rfl
  have hfind : [k].find? (readyB [] [k]) = some k :=
    List.find?_cons_of_pos _ hready
  simp [kahn, hfind, List.erase_cons_head]

theorem taskOf_single (k : String) (i : AddonInfo) :
    taskOf (gSingle k i) k = some i := by
  simp [taskOf, gSingle, List.find?_cons_of_pos]

theorem buildGraph_single (k : String) (i : AddonInfo) (cfg : EmberAddonConfig)
    (hcfg : i.pkg.emberAddon = some cfg)
    (hbef : cfg.before = []) (haft : cfg.after = []) :
    buildGraph [(k, i)] = .ok (gSingle k i) := by
  simp only [buildGraph, buildGraphAux, hcfg, hbef, haft]
  simp [dagAdd, ensureVertex, setTask, keysOf, gSingle]

theorem orderedPairs_single (k : String) (i : AddonInfo) (cfg : EmberAddonConfig)
    (hcfg : i.pkg.emberAddon = some cfg)
    (hbef : cfg.before = []) (haft : cfg.after = []) :
    orderedPairs [(k, i)] = .ok [(k, i)] := by
  simp [orderedPairs, buildGraph_single k i cfg hcfg hbef haft,
    resolveG_single, taskOf_single]

theorem runList_single_ok (env : Env) (parent : Parent) (k : String)
    (i : AddonInfo) (st : Store) (a : AddonInstance)
    (h : (processAddon env parent i).result = .ok a) :
    runList env parent [(k, i)] st =
      ((processAddon env parent i).effects,
        storeSetMain st k (resolveMain i.pkg), .ok [a]) := by
  simp [runList, h]

/-! ## C7: optional ordering sub-record -/

/-- C7 counterexample: a descriptor whose manifest omits the
`ember-addon` sub-record is not accepted — building the ordering graph
reads `.before` of `undefined` and raises a TypeError, so the call
fails and no instance is produced (even in an environment where the
module would load and construct fine). -/
theorem C7_counterexample_missing_subrecord_raises :
    (instantiateAddons parentUi none (some [("bare", infoNoEA)]) envAll).outcome =
      .error (.jsTypeError
        "Cannot read properties of undefined (reading 'before') for bare") := by
  decide

/-- C7 amended: a descriptor is accepted with no ordering constraints
only when the ordering sub-record itself is present (its `before` and
`after` lists may be empty/absent): such a descriptor contributes no
edges to the graph and, when its entry point resolves, loads and
constructs, yields an instance.  A descriptor whose manifest omits the
sub-record entirely instead makes the whole call fail with a TypeError
raised while the ordering graph is built. -/
theorem C7_amended_subrecord_required (k : String) (i : AddonInfo)
    (parent : Parent) (project : Option Project) (env : Env)
    (cfg : EmberAddonConfig) (rp : String) (mv : ModuleValue) (hasInit : Bool)
    (hcfg : i.pkg.emberAddon = some cfg)
    (hbef : cfg.before = []) (haft : cfg.after = [])
    (hrp : env.realpath (mainPathOf i) = some rp)
    (hld : env.load rp = some mv)
    (hok : moduleBehavior mv = .ok hasInit) :
    (∃ g, buildGraph [(k, i)] = .ok g ∧ g.edges = []) ∧
    (∃ inst, (instantiateAddons parent project (some [(k, i)]) env).outcome =
        .ok [inst] ∧ inst.name = i.name) ∧
    (∀ i' : AddonInfo, i'.pkg.emberAddon = none →
      (instantiateAddons parent project (some [(k, i')]) env).outcome =
        .error (.jsTypeError
          ("Cannot read properties of undefined (reading 'before') for " ++ k))) := by
  refine ⟨⟨gSingle k i, buildGraph_single k i cfg hcfg hbef haft, rfl⟩, ?_, ?_⟩
  · have hstep := processAddon_eq_ok env parent i rp mv hasInit hrp hld hok
    have hres : (processAddon env parent i).result = .ok
        { name := i.name
          root := (buildCtor mv (dirnameOf rp)
            { i.pkg with main := some (resolveMain i.pkg) }).root
          pkg := (buildCtor mv (dirnameOf rp)
            { i.pkg with main := some (resolveMain i.pkg) }).pkg
          modulePath := rp
          hasInitializeAddons := hasInit } := by rw [hstep]
    refine ⟨{ name := i.name,
              root := (buildCtor mv (dirnameOf rp)
                  { i.pkg with main := some (resolveMain i.pkg) }).root,
              pkg := (buildCtor mv (dirnameOf rp)
                  { i.pkg with main := some (resolveMain i.pkg) }).pkg,
              modulePath := rp,
              hasInitializeAddons := hasInit }, ?_, rfl⟩
    have hpairs := orderedPairs_single k i cfg hcfg hbef haft
    have hrun := runList_single_ok env parent k i [(k, i)] _ hres
    simp only [instantiateAddons, instantiateCore, Option.getD_some,
      List.isEmpty_cons, Bool.false_eq_true, if_false, hpairs, hrun]
  · intro i' hea
    simp only [instantiateAddons, instantiateCore]
    have hbg : buildGraph [(k, i')] = .error (.jsTypeError
        ("Cannot read properties of undefined (reading 'before') for " ++ k)) := by
      simp [buildGraph, buildGraphAux, hea]
    simp [orderedPairs, hbg]

/-- Witness for C7 (amended) at a concrete constraint-free descriptor in
the all-good environment. -/
theorem C7_amended_subrecord_required_witness :
    (∃ g, buildGraph [("a1", mkInfo "a1" [] [])] = .ok g ∧ g.edges = []) ∧
    (∃ inst, (instantiateAddons parentUi none
        (some [("a1", mkInfo "a1" [] [])]) envAll).outcome = .ok [inst] ∧
      inst.name = (mkInfo "a1" [] []).name) ∧
    (∀ i' : AddonInfo, i'.pkg.emberAddon = none →
      (instantiateAddons parentUi none (some [("a1", i')]) envAll).outcome =
        .error (.jsTypeError
          ("Cannot read properties of undefined (reading 'before') for " ++ "a1"))) :=
  C7_amended_subrecord_required "a1" (mkInfo "a1" [] []) parentUi none envAll
    { main := none, before := [], after := [] }
    "real/loc/a1/lib/foo.js" (.callable { behavior := .ok false }) false
    rfl rfl rfl rfl rfl rfl

/-! ## C3: throwing constructors -/

theorem runList_fail_after_ok (env : Env) (parent : Parent) :
    ∀ (pre : List (String × AddonInfo)) (st : Store) (kb : String)
      (bad : AddonInfo) (rest : List (String × AddonInfo)) (err : Err),
      (∀ p ∈ pre, stepOkOn env parent p.2) →
      (processAddon env parent bad).result = .error err →
      ∃ efsPre st',
        runList env parent (pre ++ (kb, bad) :: rest) st =
          (efsPre ++ (processAddon env parent bad).effects, st', .error err) ∧
        efsPre.filter isWriteError = [] := by
  intro pre
  induction pre with
  | nil =>
    intro st kb bad rest err _ hbad
    refine ⟨[], storeSetMain st kb (resolveMain bad.pkg), ?_, rfl⟩
    simp [runList, hbad]
  | cons p t ih =>
    intro st kb bad rest err hpre hbad
    obtain ⟨k, i⟩ := p
    obtain ⟨a, ha⟩ := hpre (k, i) (List.mem_cons_self _ _)
    obtain ⟨hname, hnoWrite⟩ := processAddon_ok_inv env parent i a ha
    obtain ⟨efsPre, st', hrun, hfilter⟩ :=
      ih (storeSetMain st k (resolveMain i.pkg)) kb bad rest err
        (fun q hq => hpre q (List.mem_cons_of_mem _ hq)) hbad
    refine ⟨(processAddon env parent i).effects ++ efsPre, st', ?_, ?_⟩
    · simp [runList, ha, hrun, List.append_assoc]
    · rw [List.filter_append, hnoWrite, hfilter]
      rfl

/-- C3: when the run reaches a plugin whose constructor throws (every
earlier plugin in the resolved order processed fine), the whole call
fails with the `SilentError` naming the plugin and its location — no
partial list of instances is returned — and when the parent exposes an
error sink, the sink receives the original thrown error exactly once
(the trace contains exactly one sink write, carrying that error), as
the final effect before the wrapping error is raised. -/
theorem C3_constructor_throw_fails_whole_call
    (parent : Parent) (project : Option Project) (env : Env) (pkgs : Store)
    (pre : List (String × AddonInfo)) (kb : String) (bad : AddonInfo)
    (rest : List (String × AddonInfo)) (e : String)
    (horder : orderedPairs pkgs = .ok (pre ++ (kb, bad) :: rest))
    (hpre : ∀ p ∈ pre, stepOkOn env parent p.2)
    (hthrows : ctorThrowsOn env bad e) :
    (instantiateAddons parent project (some pkgs) env).outcome =
        .error (.silentError ("An error occurred in the constructor for " ++
          bad.name ++ " at " ++ bad.path)) ∧
      (instantiateAddons parent project (some pkgs) env).effects.filter isWriteError =
        (if parent.hasUi then [.writeError e] else []) ∧
      (parent.hasUi = true →
        (instantiateAddons parent project (some pkgs) env).effects.getLast? =
          some (.writeError e)) := by
  obtain ⟨rp, mv, hrp, hld, hb⟩ := hthrows
  have hstep := processAddon_eq_throws env parent bad rp mv e hrp hld hb
  have hbadres : (processAddon env parent bad).result = .error (.silentError
      ("An error occurred in the constructor for " ++ bad.name ++
       " at " ++ bad.path)) := by rw [hstep]
  have hne : pkgs.isEmpty = false := by
    cases hp : pkgs with
    | nil =>
      subst hp
      rw [show orderedPairs [] = .ok [] from rfl] at horder
      injection horder with h
      exact absurd h.symm (List.append_ne_nil_of_right_ne_nil _ (by simp))
    | cons q qs => rfl
  obtain ⟨efsPre, st', hrun, hfilter⟩ :=
    runList_fail_after_ok env parent pre pkgs kb bad rest _ hpre hbadres
  have hcore : instantiateAddons parent project (some pkgs) env =
      { effects := efsPre ++ (processAddon env parent bad).effects
        store := st'
        outcome := .error (.silentError
          ("An error occurred in the constructor for " ++ bad.name ++
           " at " ++ bad.path)) } := by
    simp only [instantiateAddons, instantiateCore, Option.getD_some, hne,
      Bool.false_eq_true, if_false, horder, hrun]
  have heffs : (instantiateAddons parent project (some pkgs) env).effects =
      efsPre ++ ([.realpathCall (mainPathOf bad), .loadCall rp] ++
        (if parent.hasUi then [Effect.writeError e] else [])) := by
    rw [hcore, hstep]
  refine ⟨by rw [hcore], ?_, ?_⟩
  · rw [heffs, List.filter_append, hfilter, List.filter_append]
    cases hui : parent.hasUi <;> simp [isWriteError]
  · intro hui
    rw [heffs, hui]
    rw [show ([Effect.realpathCall (mainPathOf bad), Effect.loadCall rp] ++
        (if true = true then [Effect.writeError e] else [])) =
        ([Effect.realpathCall (mainPathOf bad), Effect.loadCall rp] ++
          [Effect.writeError e]) from rfl]
    rw [← List.append_assoc]
    exact List.getLast?_concat _

/-- Witness for C3: one addon whose constructor throws `"boom"`, with a
parent that has an error sink. -/
theorem C3_constructor_throw_fails_whole_call_witness :
    (instantiateAddons parentUi none (some [("a1", mkInfo "a1" [] [])]) envBoom).outcome =
        .error (.silentError
          "An error occurred in the constructor for a1 at loc/a1") ∧
      (instantiateAddons parentUi none
          (some [("a1", mkInfo "a1" [] [])]) envBoom).effects.filter isWriteError =
        (if parentUi.hasUi then [.writeError "boom"] else []) ∧
      (parentUi.hasUi = true →
        (instantiateAddons parentUi none
            (some [("a1", mkInfo "a1" [] [])]) envBoom).effects.getLast? =
          some (.writeError "boom")) :=
  C3_constructor_throw_fails_whole_call parentUi none envBoom
    [("a1", mkInfo "a1" [] [])] [] "a1" (mkInfo "a1" [] []) [] "boom"
    rfl (fun p hp => absurd hp (List.not_mem_nil p))
    ⟨"real/loc/a1/lib/foo.js", .callable { behavior := .throws "boom" },
      rfl, rfl, rfl⟩

/-! ## Resolver lemmas (C1, C2) -/

theorem readyB_eq_true_iff (es : List (String × String)) (rem : List String)
    (v : String) :
    readyB es rem v = true ↔ ∀ e ∈ es, e.2 = v → e.1 ∉ rem := by
  simp only [readyB, List.all_eq_true]
  constructor
  · intro h e he hev
    have := h e he
    simp only [hev, Bool.not_eq_true', Bool.and_eq_false_iff] at this
    rcases this with h' | h'
    · simp at h'
    · simpa using h'
  · intro h e he
    by_cases hev : e.2 = v
    · have := h e he hev
      simp [hev, this]
    · simp [hev]

theorem listPos_cons_self (a : String) (l : List String) :
    listPos (a :: l) a = 0 := by
  simp [listPos]

theorem listPos_cons_ne (a b : String) (l : List String) (h : b ≠ a) :
    listPos (b :: l) a = listPos l a + 1 := by
  simp [listPos, h]

theorem find?_earlier (p : String → Bool) :
    ∀ (l : List String) (v a : String), l.find? p = some v → a ∈ l →
      listPos l a < listPos l v → p a = false := by
  intro l
  induction l with
  | nil => intro v a h; exact absurd h (by simp)
  | cons b t ih =>
    intro v a h ha hlt
    cases hp : p b with
    | true =>
      rw [List.find?_cons_of_pos _ hp] at h
      injection h with h
      subst h
      rw [listPos_cons_self] at hlt
      exact absurd hlt (Nat.not_lt_zero _)
    | false =>
      rw [List.find?_cons_of_neg _ (by simp [hp])] at h
      by_cases hab : a = b
      · subst hab; exact hp
      · have hvb : v ≠ b := by
          intro hvb
          subst hvb
          have := List.find?_some h
          rw [this] at hp
          exact Bool.noConfusion hp
        have ha' : a ∈ t := by
          cases ha with
          | head => exact absurd rfl hab
          | tail _ h' => exact h'
        rw [listPos_cons_ne a b t (fun h' => hab h'.symm),
          listPos_cons_ne v b t (fun h' => hvb h'.symm)] at hlt
        exact ih v a h ha' (Nat.lt_of_succ_lt_succ hlt)

theorem kahn_perm (es : List (String × String)) :
    ∀ (fuel : Nat) (rem l : List String),
      kahn es fuel rem = .ok l → l.Perm rem := by
  intro fuel
  induction fuel with
  | zero =>
    intro rem l h
    cases rem with
    | nil =>
      simp only [kahn, Except.ok.injEq] at h
      subst h; exact List.Perm.refl _
    | cons r rs => simp [kahn] at h
  | succ n ih =>
    intro rem l h
    cases rem with
    | nil =>
      simp only [kahn, Except.ok.injEq] at h
      subst h; exact List.Perm.refl _
    | cons r rs =>
      cases hf : (r :: rs).find? (readyB es (r :: rs)) with
      | none => simp [kahn, hf] at h
      | some v =>
        cases hk : kahn es n ((r :: rs).erase v) with
        | error e => simp [kahn, hf, hk] at h
        | ok rest =>
          simp only [kahn, hf, hk, Except.ok.injEq] at h
          subst h
          have hv : v ∈ r :: rs := List.mem_of_find?_eq_some hf
          exact ((ih _ rest hk).cons v).trans (List.perm_cons_erase hv).symm

theorem kahn_edges (es : List (String × String)) :
    ∀ (fuel : Nat) (rem l : List String), kahn es fuel rem = .ok l →
      ∀ a b, (a, b) ∈ es → a ∈ rem → b ∈ rem → listPos l a < listPos l b := by
  intro fuel
  induction fuel with
  | zero =>
    intro rem l h a b hab ha hb
    cases rem with
    | nil => exact absurd ha (List.not_mem_nil a)
    | cons r rs => simp [kahn] at h
  | succ n ih =>
    intro rem l h a b hab ha hb
    cases rem with
    | nil => exact absurd ha (List.not_mem_nil a)
    | cons r rs =>
      cases hf : (r :: rs).find? (readyB es (r :: rs)) with
      | none => simp [kahn, hf] at h
      | some v =>
        cases hk : kahn es n ((r :: rs).erase v) with
        | error e => simp [kahn, hf, hk] at h
        | ok rest =>
          simp only [kahn, hf, hk, Except.ok.injEq] at h
          subst h
          have hready : readyB es (r :: rs) v = true := List.find?_some hf
          have hready' := (readyB_eq_true_iff es (r :: rs) v).mp hready
          have hbv : b ≠ v := by
            intro hbv
            subst hbv
            exact hready' (a, b) hab rfl ha
          by_cases hav : a = v
          · subst hav
            rw [listPos_cons_self, listPos_cons_ne b a rest (fun h' => hbv h'.symm)]
            exact Nat.succ_pos _
          · have harest : a ∈ (r :: rs).erase v := (List.mem_erase_of_ne hav).mpr ha
            have hbrest : b ∈ (r :: rs).erase v := (List.mem_erase_of_ne hbv).mpr hb
            have hlt := ih _ rest hk a b hab harest hbrest
            rw [listPos_cons_ne a v rest (fun h' => hav h'.symm),
              listPos_cons_ne b v rest (fun h' => hbv h'.symm)]
            exact Nat.succ_lt_succ hlt

theorem listPos_erase_mono (v : String) :
    ∀ (l : List String) (a b : String), a ∈ l → b ∈ l → a ≠ v → b ≠ v →
      listPos l a < listPos l b →
      listPos (l.erase v) a < listPos (l.erase v) b := by
  intro l
  induction l with
  | nil => intro a b ha; exact absurd ha (List.not_mem_nil a)
  | cons h t ih =>
    intro a b ha hb hav hbv hlt
    rw [List.erase_cons]
    by_cases hhv : h = v
    · rw [if_pos (by simp [hhv])]
      have hah : a ≠ h := fun h' => hav (hhv ▸ h')
      have hbh : b ≠ h := fun h' => hbv (hhv ▸ h')
      rw [listPos_cons_ne a h t (fun h' => hah h'.symm),
        listPos_cons_ne b h t (fun h' => hbh h'.symm)] at hlt
      exact Nat.lt_of_succ_lt_succ hlt
    · rw [if_neg (by simp [hhv])]
      by_cases hah : a = h
      · have hba : b ≠ a := by
          intro h'
          rw [h'] at hlt
          exact absurd hlt (lt_irrefl _)
        have hbh : b ≠ h := fun h' => hba (h'.trans hah.symm)
        rw [← hah, listPos_cons_self]
        rw [listPos_cons_ne b a (t.erase v) (fun h' => hba h'.symm)]
        exact Nat.succ_pos _
      · by_cases hbh : b = h
        · rw [← hbh, listPos_cons_self] at hlt
          exact absurd hlt (Nat.not_lt_zero _)
        · have ha' : a ∈ t := by
            cases ha with
            | head => exact absurd rfl hah
            | tail _ hh => exact hh
          have hb' : b ∈ t := by
            cases hb with
            | head => exact absurd rfl hbh
            | tail _ hh => exact hh
          rw [listPos_cons_ne a h t (fun h' => hah h'.symm),
            listPos_cons_ne b h t (fun h' => hbh h'.symm)] at hlt
          have hrec := ih a b ha' hb' hav hbv (Nat.lt_of_succ_lt_succ hlt)
          rw [listPos_cons_ne a h (t.erase v) (fun h' => hah h'.symm),
            listPos_cons_ne b h (t.erase v) (fun h' => hbh h'.symm)]
          exact Nat.succ_lt_succ hrec

theorem kahn_stuck (es : List (String × String)) :
    ∀ (fuel : Nat) (rem : List String) (err : Err), rem.length ≤ fuel →
      kahn es fuel rem = .error err →
      ∃ stuck, err = .cycleError stuck ∧ stuck ≠ [] ∧
        ∀ v ∈ stuck, ∃ u ∈ stuck, (u, v) ∈ es := by
  intro fuel
  induction fuel with
  | zero =>
    intro rem err hlen h
    cases rem with
    | nil => simp [kahn] at h
    | cons r rs => simp at hlen
  | succ n ih =>
    intro rem err hlen h
    cases rem with
    | nil => simp [kahn] at h
    | cons r rs =>
      cases hf : (r :: rs).find? (readyB es (r :: rs)) with
      | none =>
        simp only [kahn, hf, Except.error.injEq] at h
        refine ⟨r :: rs, h.symm, by simp, ?_⟩
        intro v hv
        have hall := List.find?_eq_none.mp hf v hv
        have hnot : ¬ (∀ e ∈ es, e.2 = v → e.1 ∉ (r :: rs)) := by
          intro hc
          exact hall ((readyB_eq_true_iff es (r :: rs) v).mpr hc)
        push_neg at hnot
        obtain ⟨e, he, hev, hu⟩ := hnot
        refine ⟨e.1, hu, ?_⟩
        rw [← hev]
        exact he
      | some v =>
        cases hk : kahn es n ((r :: rs).erase v) with
        | ok rest => simp [kahn, hf, hk] at h
        | error e' =>
          simp only [kahn, hf, hk, Except.error.injEq] at h
          have hv : v ∈ r :: rs := List.mem_of_find?_eq_some hf
          have hlen' : ((r :: rs).erase v).length ≤ n := by
            rw [List.length_erase_of_mem hv]
            simp only [List.length_cons] at hlen ⊢
            omega
          obtain ⟨stuck, he', hne, hprop⟩ := ih _ e' hlen' hk
          exact ⟨stuck, h ▸ he', hne, hprop⟩

theorem stuck_cycle (es : List (String × String)) (S : List String)
    (hne : S ≠ []) (h : ∀ v ∈ S, ∃ u ∈ S, (u, v) ∈ es) :
    ∃ v ∈ S, Relation.TransGen (fun a b => (a, b) ∈ es) v v := by
  classical
  have hex : ∀ v : String, ∃ u : String, v ∈ S → u ∈ S ∧ (u, v) ∈ es := by
    intro v
    by_cases hv : v ∈ S
    · obtain ⟨u, hu, he⟩ := h v hv
      exact ⟨u, fun _ => ⟨hu, he⟩⟩
    · exact ⟨v, fun hv' => absurd hv' hv⟩
  choose f hfspec using hex
  obtain ⟨x0, hx0⟩ := List.exists_mem_of_ne_nil S hne
  have hiter : ∀ n, f^[n] x0 ∈ S := by
    intro n
    induction n with
    | zero => simpa using hx0
    | succ n ihn =>
      rw [Function.iterate_succ_apply']
      exact (hfspec _ ihn).1
  have hchain : ∀ (n : Nat) (x : String), x ∈ S →
      Relation.TransGen (fun a b => (a, b) ∈ es) (f^[n + 1] x) x := by
    intro n
    induction n with
    | zero =>
      intro x hx
      simpa using Relation.TransGen.single (hfspec x hx).2
    | succ n ihn =>
      intro x hx
      have hfx : f x ∈ S := (hfspec x hx).1
      have hrec := ihn (f x) hfx
      have heq : f^[n + 1 + 1] x = f^[n + 1] (f x) :=
        Function.iterate_succ_apply f (n + 1) x
      rw [heq]
      exact hrec.tail (hfspec x hx).2
  have hmaps : ∀ i ∈ Finset.range (S.toFinset.card + 1), f^[i] x0 ∈ S.toFinset := by
    intro i _
    simpa [List.mem_toFinset] using hiter i
  have hcard : S.toFinset.card < (Finset.range (S.toFinset.card + 1)).card := by
    simp
  obtain ⟨i, hi, j, hj, hij, hfeq⟩ :=
    Finset.exists_ne_map_eq_of_card_lt_of_maps_to hcard hmaps
  have key : ∀ p q : Nat, p < q → f^[p] x0 = f^[q] x0 →
      ∃ v ∈ S, Relation.TransGen (fun a b => (a, b) ∈ es) v v := by
    intro p q hpq hpqeq
    obtain ⟨d, hd⟩ := Nat.exists_eq_add_of_lt hpq
    subst hd
    have hx : f^[p] x0 ∈ S := hiter p
    have hcyc := hchain d (f^[p] x0) hx
    have heq2 : f^[d + 1] (f^[p] x0) = f^[p + d + 1] x0 := by
      rw [← Function.iterate_add_apply]
      congr 1
      omega
    rw [heq2, ← hpqeq] at hcyc
    exact ⟨f^[p] x0, hx, hcyc⟩
  rcases Nat.lt_or_ge i j with hlt | hge
  · exact key i j hlt hfeq
  · exact key j i (lt_of_le_of_ne hge (Ne.symm hij)) hfeq.symm

theorem kahn_stable (es : List (String × String)) :
    ∀ (fuel : Nat) (rem l : List String), rem.Nodup →
      kahn es fuel rem = .ok l →
      ∀ a b, a ∈ rem → b ∈ rem →
        listPos rem a < listPos rem b →
        listPos l b < listPos l a →
        ∃ w, (w, a) ∈ es ∧ w ∈ l ∧ listPos l b ≤ listPos l w := by
  intro fuel
  induction fuel with
  | zero =>
    intro rem l hnd h a b ha hb hrem hl
    cases rem with
    | nil => exact absurd ha (List.not_mem_nil a)
    | cons r rs => simp [kahn] at h
  | succ n ih =>
    intro rem l hnd h a b ha hb hrem hl
    cases rem with
    | nil => exact absurd ha (List.not_mem_nil a)
    | cons r rs =>
      cases hf : (r :: rs).find? (readyB es (r :: rs)) with
      | none => simp [kahn, hf] at h
      | some v =>
        cases hk : kahn es n ((r :: rs).erase v) with
        | error e => simp [kahn, hf, hk] at h
        | ok rest =>
          simp only [kahn, hf, hk, Except.ok.injEq] at h
          subst h
          have hvmem : v ∈ r :: rs := List.mem_of_find?_eq_some hf
          have hperm : rest.Perm ((r :: rs).erase v) := kahn_perm es n _ rest hk
          have hvnotrest : v ∉ rest := by
            intro hvr
            exact (List.Nodup.not_mem_erase hnd) (hperm.mem_iff.mp hvr)
          by_cases hav : a = v
          · subst hav
            rw [listPos_cons_self] at hl
            exact absurd hl (Nat.not_lt_zero _)
          · by_cases hbv : b = v
            · subst hbv
              have hpa : readyB es (r :: rs) a = false :=
                find?_earlier _ (r :: rs) b a hf ha hrem
              have hnot : ¬ (∀ e ∈ es, e.2 = a → e.1 ∉ (r :: rs)) := by
                intro hc
                rw [(readyB_eq_true_iff es (r :: rs) a).mpr hc] at hpa
                exact Bool.noConfusion hpa
              push_neg at hnot
              obtain ⟨e, he, hea, hw⟩ := hnot
              have hlperm : (b :: rest).Perm (r :: rs) :=
                (hperm.cons b).trans (List.perm_cons_erase hvmem).symm
              refine ⟨e.1, by rw [← hea]; exact he, hlperm.mem_iff.mpr hw, ?_⟩
              rw [listPos_cons_self]
              exact Nat.zero_le _
            · have harem : a ∈ (r :: rs).erase v := (List.mem_erase_of_ne hav).mpr ha
              have hbrem : b ∈ (r :: rs).erase v := (List.mem_erase_of_ne hbv).mpr hb
              have hremlt : listPos ((r :: rs).erase v) a < listPos ((r :: rs).erase v) b :=
                listPos_erase_mono v (r :: rs) a b ha hb hav hbv hrem
              rw [listPos_cons_ne b v rest (fun h' => hbv h'.symm),
                listPos_cons_ne a v rest (fun h' => hav h'.symm)] at hl
              obtain ⟨w, hwes, hwrest, hwpos⟩ :=
                ih ((r :: rs).erase v) rest (hnd.erase v) hk a b harem hbrem
                  hremlt (Nat.lt_of_succ_lt_succ hl)
              have hwv : w ≠ v := fun h' => hvnotrest (h' ▸ hwrest)
              refine ⟨w, hwes, List.mem_cons_of_mem v hwrest, ?_⟩
              rw [listPos_cons_ne b v rest (fun h' => hbv h'.symm),
                listPos_cons_ne w v rest (fun h' => hwv h'.symm)]
              exact Nat.succ_le_succ hwpos

theorem keysOf_setTask (g : Graph) (k : String) (i : AddonInfo) :
    keysOf (setTask g k i) = keysOf g := by
  unfold keysOf setTask
  rw [List.map_map]
  apply List.map_congr_left
  intro p _
  by_cases h : p.1 = k <;> simp [h]

theorem keysOf_addEdge (g : Graph) (a b : String) :
    keysOf (addEdge g a b) = keysOf g := rfl

theorem edges_ensureVertex (g : Graph) (k : String) :
    (ensureVertex g k).edges = g.edges := by
  unfold ensureVertex
  split <;> rfl

theorem edges_setTask (g : Graph) (k : String) (i : AddonInfo) :
    (setTask g k i).edges = g.edges := rfl

theorem edges_addEdge (g : Graph) (a b : String) :
    (addEdge g a b).edges = g.edges ++ [(a, b)] := rfl

theorem mem_keysOf_ensureVertex_of_mem (g : Graph) (k s : String)
    (h : s ∈ keysOf g) : s ∈ keysOf (ensureVertex g k) := by
  unfold ensureVertex
  split
  · exact h
  · show s ∈ keysOf { g with verts := g.verts ++ [(k, none)] }
    unfold keysOf
    simp only [List.map_append]
    exact List.mem_append_left _ h

theorem mem_keysOf_ensureVertex_self (g : Graph) (k : String) :
    k ∈ keysOf (ensureVertex g k) := by
  unfold ensureVertex
  split
  · assumption
  · show k ∈ keysOf { g with verts := g.verts ++ [(k, none)] }
    unfold keysOf
    simp

theorem nodup_keysOf_ensureVertex (g : Graph) (k : String)
    (h : (keysOf g).Nodup) : (keysOf (ensureVertex g k)).Nodup := by
  unfold ensureVertex
  split
  · exact h
  · show (keysOf { g with verts := g.verts ++ [(k, none)] }).Nodup
    unfold keysOf at *
    simp only [List.map_append, List.map_cons, List.map_nil]
    rw [List.nodup_append]
    refine ⟨h, List.nodup_singleton k, ?_⟩
    intro s hs hsk
    simp only [List.mem_singleton] at hsk
    subst hsk
    exact absurd hs (by assumption)

theorem foldl_graph_pres (P : Graph → Prop) (f : Graph → String → Graph)
    (hstep : ∀ g s, P g → P (f g s)) :
    ∀ (l : List String) (g : Graph), P g → P (l.foldl f g) := by
  intro l
  induction l with
  | nil => intro g h; exact h
  | cons s t ih => intro g h; exact ih _ (hstep g s h)

theorem dagAdd_inv (g : Graph) (k : String) (i : AddonInfo)
    (bef aft : List String)
    (hnd : (keysOf g).Nodup)
    (he : ∀ e ∈ g.edges, e.1 ∈ keysOf g ∧ e.2 ∈ keysOf g) :
    (keysOf (dagAdd g k i bef aft)).Nodup ∧
      (∀ e ∈ (dagAdd g k i bef aft).edges,
        e.1 ∈ keysOf (dagAdd g k i bef aft) ∧ e.2 ∈ keysOf (dagAdd g k i bef aft)) ∧
      (∀ s, s ∈ keysOf g → s ∈ keysOf (dagAdd g k i bef aft)) ∧
      k ∈ keysOf (dagAdd g k i bef aft) := by
  unfold dagAdd
  set P : Graph → Prop := fun g' =>
    (keysOf g').Nodup ∧
      (∀ e ∈ g'.edges, e.1 ∈ keysOf g' ∧ e.2 ∈ keysOf g') ∧
      (∀ s, s ∈ keysOf g → s ∈ keysOf g') ∧
      k ∈ keysOf g' with hP
  have hstep1 : ∀ g' b, P g' → P (addEdge (ensureVertex g' b) k b) := by
    intro g' b hp
    obtain ⟨h1, h2, h3, h4⟩ := hp
    refine ⟨?_, ?_, ?_, ?_⟩
    · rw [show keysOf (addEdge (ensureVertex g' b) k b) =
        keysOf (ensureVertex g' b) from rfl]
      exact nodup_keysOf_ensureVertex g' b h1
    · intro e hee
      rw [edges_addEdge, edges_ensureVertex] at hee
      rw [keysOf_addEdge]
      rcases List.mem_append.mp hee with hold | hnew
      · obtain ⟨ha, hb⟩ := h2 e hold
        exact ⟨mem_keysOf_ensureVertex_of_mem g' b _ ha,
          mem_keysOf_ensureVertex_of_mem g' b _ hb⟩
      · simp only [List.mem_singleton] at hnew
        subst hnew
        exact ⟨mem_keysOf_ensureVertex_of_mem g' b _ h4,
          mem_keysOf_ensureVertex_self g' b⟩
    · intro s hs
      rw [keysOf_addEdge]
      exact mem_keysOf_ensureVertex_of_mem g' b _ (h3 s hs)
    · rw [keysOf_addEdge]
      exact mem_keysOf_ensureVertex_of_mem g' b _ h4
  have hstep2 : ∀ g' a, P g' → P (addEdge (ensureVertex g' a) a k) := by
    intro g' a hp
    obtain ⟨h1, h2, h3, h4⟩ := hp
    refine ⟨?_, ?_, ?_, ?_⟩
    · rw [show keysOf (addEdge (ensureVertex g' a) a k) =
        keysOf (ensureVertex g' a) from rfl]
      exact nodup_keysOf_ensureVertex g' a h1
    · intro e hee
      rw [edges_addEdge, edges_ensureVertex] at hee
      rw [keysOf_addEdge]
      rcases List.mem_append.mp hee with hold | hnew
      · obtain ⟨ha, hb⟩ := h2 e hold
        exact ⟨mem_keysOf_ensureVertex_of_mem g' a _ ha,
          mem_keysOf_ensureVertex_of_mem g' a _ hb⟩
      · simp only [List.mem_singleton] at hnew
        subst hnew
        exact ⟨mem_keysOf_ensureVertex_self g' a,
          mem_keysOf_ensureVertex_of_mem g' a _ h4⟩
    · intro s hs
      rw [keysOf_addEdge]
      exact mem_keysOf_ensureVertex_of_mem g' a _ (h3 s hs)
    · rw [keysOf_addEdge]
      exact mem_keysOf_ensureVertex_of_mem g' a _ h4
  have hbase : P (setTask (ensureVertex g k) k i) := by
    refine ⟨?_, ?_, ?_, ?_⟩
    · rw [keysOf_setTask]
      exact nodup_keysOf_ensureVertex g k hnd
    · intro e hee
      rw [edges_setTask, edges_ensureVertex] at hee
      rw [keysOf_setTask]
      obtain ⟨ha, hb⟩ := he e hee
      exact ⟨mem_keysOf_ensureVertex_of_mem g k _ ha,
        mem_keysOf_ensureVertex_of_mem g k _ hb⟩
    · intro s hs
      rw [keysOf_setTask]
      exact mem_keysOf_ensureVertex_of_mem g k _ hs
    · rw [keysOf_setTask]
      exact mem_keysOf_ensureVertex_self g k
  have h2 := foldl_graph_pres P _ hstep1 bef _ hbase
  have h3 := foldl_graph_pres P _ hstep2 aft _ h2
  exact h3

theorem buildGraphAux_inv :
    ∀ (store : Store) (g0 g : Graph),
      buildGraphAux store g0 = .ok g →
      (keysOf g0).Nodup →
      (∀ e ∈ g0.edges, e.1 ∈ keysOf g0 ∧ e.2 ∈ keysOf g0) →
      (keysOf g).Nodup ∧
        (∀ e ∈ g.edges, e.1 ∈ keysOf g ∧ e.2 ∈ keysOf g) ∧
        (∀ s, s ∈ keysOf g0 → s ∈ keysOf g) ∧
        (∀ p ∈ store, p.1 ∈ keysOf g) := by
  intro store
  induction store with
  | nil =>
    intro g0 g h hnd he
    simp only [buildGraphAux, Except.ok.injEq] at h
    subst h
    exact ⟨hnd, he, fun s hs => hs, by simp⟩
  | cons p t ih =>
    intro g0 g h hnd he
    cases hcfg : p.2.pkg.emberAddon with
    | none => simp [buildGraphAux, hcfg] at h
    | some cfg =>
      simp only [buildGraphAux, hcfg] at h
      obtain ⟨hnd', he', hmono', hk'⟩ :=
        dagAdd_inv g0 p.1 p.2 cfg.before cfg.after hnd he
      obtain ⟨h1, h2, h3, h4⟩ := ih _ g h hnd' he'
      refine ⟨h1, h2, fun s hs => h3 s (hmono' s hs), ?_⟩
      intro q hq
      cases hq with
      | head => exact h3 p.1 hk'
      | tail _ hq' => exact h4 q hq'

/-- The invariants of every graph built by `buildGraph`: the vertex keys
are duplicate-free, every edge endpoint is a vertex, and every store key
is a vertex. -/
theorem buildGraph_inv (store : Store) (g : Graph)
    (h : buildGraph store = .ok g) :
    (keysOf g).Nodup ∧
      (∀ e ∈ g.edges, e.1 ∈ keysOf g ∧ e.2 ∈ keysOf g) ∧
      (∀ p ∈ store, p.1 ∈ keysOf g) := by
  obtain ⟨h1, h2, _, h4⟩ := buildGraphAux_inv store _ g h (by simp [keysOf]) (by simp)
  exact ⟨h1, h2, h4⟩

theorem resolveOk_no_cycle (g : Graph) (order : List String)
    (hres : resolveG g = .ok order)
    (hE : ∀ e ∈ g.edges, e.1 ∈ keysOf g ∧ e.2 ∈ keysOf g) :
    ∀ v, ¬ Relation.TransGen (EdgeOf g) v v := by
  intro v htg
  have hres' : kahn g.edges (keysOf g).length (keysOf g) = .ok order := hres
  have hmono : ∀ x y, Relation.TransGen (EdgeOf g) x y →
      listPos order x < listPos order y := by
    intro x y hxy
    induction hxy with
    | single h' =>
      exact kahn_edges g.edges _ _ _ hres' _ _ h' (hE _ h').1 (hE _ h').2
    | tail h1 h2 ihh =>
      exact ihh.trans (kahn_edges g.edges _ _ _ hres' _ _ h2 (hE _ h2).1 (hE _ h2).2)
  exact absurd (hmono v v htg) (lt_irrefl _)

theorem runList_ok_names (env : Env) (parent : Parent) :
    ∀ (pairs : List (String × AddonInfo)) (st : Store) (insts : List AddonInstance),
      (runList env parent pairs st).2.2 = .ok insts →
      insts.map AddonInstance.name = pairs.map (fun p => p.2.name) := by
  intro pairs
  induction pairs with
  | nil =>
    intro st insts h
    simp only [runList, Except.ok.injEq] at h
    subst h
    rfl
  | cons p t ih =>
    intro st insts h
    obtain ⟨k, i⟩ := p
    simp only [runList] at h
    cases hres : (processAddon env parent i).result with
    | error e => simp [hres] at h
    | ok inst =>
      simp only [hres] at h
      cases hrr : (runList env parent t (storeSetMain st k (resolveMain i.pkg))).2.2 with
      | error e => simp [hrr] at h
      | ok insts' =>
        simp only [hrr, Except.ok.injEq] at h
        subst h
        have hname := (processAddon_ok_inv env parent i inst hres).1
        simp [hname, ih _ _ hrr]

theorem filterMap_pair_snd_names (g : Graph) :
    ∀ order : List String,
      ((order.filterMap (fun s => (taskOf g s).map (fun i => (s, i)))).map
        (fun p => p.2.name)) =
      (order.filterMap (fun s => taskOf g s)).map AddonInfo.name := by
  intro order
  induction order with
  | nil => rfl
  | cons s t ih =>
    cases ht : taskOf g s with
    | none => simp [List.filterMap_cons, ht, ih]
    | some i => simp [List.filterMap_cons, ht, ih]

theorem instantiateCore_outcome (parent : Parent) (env : Env) (store : Store)
    (pairs : List (String × AddonInfo))
    (hne : store.isEmpty = false)
    (hord : orderedPairs store = .ok pairs) :
    (instantiateCore parent env store).outcome = (runList env parent pairs store).2.2 := by
  unfold instantiateCore
  cases hr : runList env parent pairs store with
  | mk efs rest =>
    cases rest with
    | mk st out => simp [hne, hord, hr]

/-! ## C1: deterministic topological order -/

/-- C1: for every acyclic set of descriptors handed to
`instantiateAddons`, the resolved linear order exists and (i) contains
every added plugin name exactly once; (ii) respects every registered
constraint — for each edge A-before-B (from a `before`, or the flipped
`after`), A is strictly earlier; (iii) breaks ties by insertion order:
whenever a later-added node `b` is emitted before an earlier-added node
`a`, it is only because `a` was not yet eligible — `a` has a registered
predecessor emitted no earlier than `b`; and (iv) a successful call
constructs its instances exactly in this order (the payload-free
constraint-only vertices being skipped).  The resolver is a pure
function of the graph, so the same input always yields this same order
(determinism). -/
theorem C1_resolved_order_topological
    (parent : Parent) (project : Option Project) (env : Env)
    (pkgs : Store) (g : Graph)
    (hbg : buildGraph pkgs = .ok g)
    (hacyc : ∀ v, ¬ Relation.TransGen (EdgeOf g) v v) :
    ∃ order, resolveG g = .ok order ∧
      (∀ k ∈ pkgs.map Prod.fst, order.count k = 1) ∧
      (∀ e ∈ g.edges, listPos order e.1 < listPos order e.2) ∧
      (∀ a b, a ∈ keysOf g → b ∈ keysOf g →
        listPos (keysOf g) a < listPos (keysOf g) b →
        listPos order b < listPos order a →
        ∃ w, (w, a) ∈ g.edges ∧ w ∈ order ∧ listPos order b ≤ listPos order w) ∧
      (∀ insts,
        (instantiateAddons parent project (some pkgs) env).outcome = .ok insts →
        insts.map AddonInstance.name =
          (order.filterMap (fun s => taskOf g s)).map AddonInfo.name) := by
  obtain ⟨hnd, hE, hkeys⟩ := buildGraph_inv pkgs g hbg
  cases hres : resolveG g with
  | error err =>
    exfalso
    obtain ⟨stuck, _, hne, hprop⟩ :=
      kahn_stuck g.edges (keysOf g).length (keysOf g) err (le_refl _) hres
    obtain ⟨v, hv, hcyc⟩ := stuck_cycle g.edges stuck hne hprop
    exact hacyc v hcyc
  | ok order =>
    have hres' : kahn g.edges (keysOf g).length (keysOf g) = .ok order := hres
    have hperm : order.Perm (keysOf g) := kahn_perm _ _ _ _ hres'
    refine ⟨order, rfl, ?_, ?_, ?_, ?_⟩
    · intro k hk
      obtain ⟨p, hp, hpk⟩ := List.mem_map.mp hk
      have hkmem : k ∈ keysOf g := hpk ▸ hkeys p hp
      rw [List.Perm.count_eq hperm]
      exact List.count_eq_one_of_mem hnd hkmem
    · intro e hee
      exact kahn_edges g.edges _ _ _ hres' e.1 e.2 hee (hE e hee).1 (hE e hee).2
    · intro a b ha hb h1 h2
      exact kahn_stable g.edges _ _ _ hnd hres' a b ha hb h1 h2
    · intro insts hout
      by_cases hemp : pkgs.isEmpty = true
      · have hpkg : pkgs = [] := List.isEmpty_iff.mp hemp
        subst hpkg
        have hg : g = { verts := [], edges := [] } := by
          have h0 : buildGraph ([] : Store) = .ok { verts := [], edges := [] } := rfl
          rw [h0] at hbg
          injection hbg with h'
          exact h'.symm
        subst hg
        have hord0 : order = [] := by
          have h0 : resolveG { verts := [], edges := [] } = .ok ([] : List String) := rfl
          rw [h0] at hres
          injection hres with h'
          exact h'.symm
        subst hord0
        have h0 : (instantiateAddons parent project (some []) env).outcome =
            .ok ([] : List AddonInstance) := rfl
        rw [h0] at hout
        injection hout with h'
        rw [← h']
        rfl
      · have hne : pkgs.isEmpty = false := by
          cases hq : pkgs.isEmpty
          · rfl
          · exact absurd hq hemp
        have hord : orderedPairs pkgs =
            .ok (order.filterMap (fun s => (taskOf g s).map (fun i => (s, i)))) := by
          simp only [orderedPairs, hbg, hres]
        have hco := instantiateCore_outcome parent env pkgs _ hne hord
        rw [show instantiateAddons parent project (some pkgs) env =
          instantiateCore parent env pkgs from rfl, hco] at hout
        have hnames := runList_ok_names env parent _ pkgs insts hout
        rw [hnames, filterMap_pair_snd_names]

/-- Witness for C1 at the concrete set `{x: after y, y: (none)}`: the
resolved order is `[y, x]`, with all four conclusions available. -/
theorem C1_resolved_order_topological_witness :
    ∃ order, resolveG gW = .ok order ∧
      (∀ k ∈ pkgsW.map Prod.fst, order.count k = 1) ∧
      (∀ e ∈ gW.edges, listPos order e.1 < listPos order e.2) ∧
      (∀ a b, a ∈ keysOf gW → b ∈ keysOf gW →
        listPos (keysOf gW) a < listPos (keysOf gW) b →
        listPos order b < listPos order a →
        ∃ w, (w, a) ∈ gW.edges ∧ w ∈ order ∧ listPos order b ≤ listPos order w) ∧
      (∀ insts,
        (instantiateAddons parentUi none (some pkgsW) envAll).outcome = .ok insts →
        insts.map AddonInstance.name =
          (order.filterMap (fun s => taskOf gW s)).map AddonInfo.name) :=
  C1_resolved_order_topological parentUi none envAll pkgsW gW rfl
    (resolveOk_no_cycle gW ["y", "x"] rfl (by decide))

/-! ## C2: cycles -/

/-- C2: when the before/after constraints of the descriptors contain a
cycle through an added node, the whole call fails with the resolver's
`CycleError` carrying the stuck (unresolvable) nodes, at least one of
which lies on a cycle; no partial sequence of instances is returned
(the outcome is the error alone), and the fuelled resolver is a total
function, so the call terminates on every input. -/
theorem C2_cycle_fails_with_cycle_error
    (parent : Parent) (project : Option Project) (env : Env)
    (pkgs : Store) (g : Graph) (v : String)
    (hbg : buildGraph pkgs = .ok g)
    (hv : v ∈ pkgs.map Prod.fst)
    (hcyc : Relation.TransGen (EdgeOf g) v v) :
    ∃ stuck, (instantiateAddons parent project (some pkgs) env).outcome =
        .error (.cycleError stuck) ∧
      stuck ≠ [] ∧
      ∃ w ∈ stuck, Relation.TransGen (EdgeOf g) w w := by
  obtain ⟨hnd, hE, hkeys⟩ := buildGraph_inv pkgs g hbg
  cases hres : resolveG g with
  | ok order =>
    exact absurd hcyc (resolveOk_no_cycle g order hres hE v)
  | error err =>
    obtain ⟨stuck, herr, hne, hprop⟩ :=
      kahn_stuck g.edges (keysOf g).length (keysOf g) err (le_refl _) hres
    obtain ⟨w, hw, hwcyc⟩ := stuck_cycle g.edges stuck hne hprop
    subst herr
    have hemp : pkgs.isEmpty = false := by
      cases pkgs with
      | nil => simp at hv
      | cons q qs => rfl
    have hord : orderedPairs pkgs = .error (.cycleError stuck) := by
      simp only [orderedPairs, hbg, hres]
    refine ⟨stuck, ?_, hne, ⟨w, hw, hwcyc⟩⟩
    show (instantiateCore parent env pkgs).outcome = _
    unfold instantiateCore
    simp [hemp, hord]

/-- Witness for C2 at the concrete two-cycle `{a: before b, b: before a}`. -/
theorem C2_cycle_fails_with_cycle_error_witness :
    ∃ stuck, (instantiateAddons parentUi none (some pkgsC) envAll).outcome =
        .error (.cycleError stuck) ∧
      stuck ≠ [] ∧
      ∃ w ∈ stuck, Relation.TransGen (EdgeOf gC) w w :=
  C2_cycle_fails_with_cycle_error parentUi none envAll pkgsC gC "a" rfl
    (by decide)
    (Relation.TransGen.head (show EdgeOf gC "a" "b" by simp [EdgeOf, gC])
      (Relation.TransGen.single (show EdgeOf gC "b" "a" by simp [EdgeOf, gC])))
